import Mathlib

/-!
A shallow embedding of `src/train.py` (data preparation and training
orchestration for an RNN encoder-decoder phrase-translation model), together
with proofs of the specified properties.

Modelling conventions:
* Python `dict`s become association lists kept in insertion order; assignment
  overwrites the entry for an existing key in place and appends a fresh key at
  the end, exactly as CPython does.
* Text files become lists of line strings; `str.split()` (whitespace
  tokenisation) and `str.split("|||")` are modelled on Lean strings.
* Floating point losses, learning rates and embedding entries are modelled as
  rationals; `np.inf` (the initial `best_dev_nll`) becomes `Option.none`.
* Exceptions (the `reduce` TypeError on an empty corpus, the IndexError on a
  phrase-table line without a delimiter, the failed `assert` on an embedding
  dimension mismatch) are modelled by `Option.none` results.
* The external RNN collaborator is out of scope (per the design document); the
  training loop is driven by an arbitrary list of per-epoch dev losses.
-/

namespace MTRNN

/-- Association-list model of a Python `dict`: entries are kept in insertion
order and keys are unique for any dict built with `dictSet` from `[]`. -/
abbrev Dict (κ ν : Type) := List (κ × ν)

/-- `d[k] = v`: overwrite the entry of an existing key in place, otherwise
append the new key at the end (CPython insertion-order semantics). -/
def dictSet [DecidableEq κ] (d : Dict κ ν) (k : κ) (v : ν) : Dict κ ν :=
  if d.any (fun p => p.1 == k) then
    d.map (fun p => if p.1 = k then (k, v) else p)
  else
    d ++ [(k, v)]

/-- `d.get(k)` without a default: the value stored at key `k`, if any. -/
def dictGet [DecidableEq κ] (d : Dict κ ν) (k : κ) : Option ν :=
  (d.find? (fun p => p.1 == k)).map (fun p => p.2)

/-- Helper for `pySplitWs`: scan the characters, breaking at whitespace;
`cur` holds the current token's characters in reverse. -/
def splitWsAux : List Char → List Char → List String
  | [], cur => if cur.isEmpty then [] else [String.mk cur.reverse]
  | c :: rest, cur =>
    if c.isWhitespace then
      if cur.isEmpty then splitWsAux rest []
      else String.mk cur.reverse :: splitWsAux rest []
    else splitWsAux rest (c :: cur)

/-- Python `line.split()`: split on whitespace runs, dropping empty pieces
(leading and trailing whitespace produce nothing, so a preceding `.strip()`
is a no-op before this). -/
def pySplitWs (s : String) : List String :=
  splitWsAux s.data []

/-- Python `line.strip()`: drop leading and trailing whitespace. -/
def pyTrim (s : String) : String :=
  String.mk
    (((s.data.dropWhile Char.isWhitespace).reverse.dropWhile
      Char.isWhitespace).reverse)

/-- Helper for `pySplitBars`: split at each non-overlapping occurrence of the
delimiter `"|||"`, left to right; `cur` holds the current segment reversed. -/
def splitBarsAux : List Char → List Char → List String
  | '|' :: '|' :: '|' :: rest, cur => String.mk cur.reverse :: splitBarsAux rest []
  | c :: rest, cur => splitBarsAux rest (c :: cur)
  | [], cur => [String.mk cur.reverse]

/-- Python `line.split("|||")`: always returns at least one segment; returns a
single segment exactly when the line does not contain the delimiter. -/
def pySplitBars (s : String) : List String :=
  splitBarsAux s.data []

/-- One `freq[word] = freq.get(word, 0) + 1` step of `parseCorpus`. -/
def bumpCount (freq : Dict String ℕ) (w : String) : Dict String ℕ :=
  dictSet freq w ((dictGet freq w).getD 0 + 1)

/-- The token-frequency dict built by the first loop of `parseCorpus`. -/
def countTokens (iFile : List String) : Dict String ℕ :=
  iFile.foldl (fun freq line => (pySplitWs line).foldl bumpCount freq) []

/-- Stable insertion step for `insertionSortBy`. -/
def insertBy (le : α → α → Bool) (a : α) : List α → List α
  | [] => [a]
  | b :: bs => if le a b then a :: b :: bs else b :: insertBy le a bs

/-- Stable sort; with comparator `fun a b => b.2 ≤ a.2` this computes the same
list as Python's stable `sorted(freq.items(), key=itemgetter(1), reverse=True)`
(a stable sort's output is determined by the comparator and input order). -/
def insertionSortBy (le : α → α → Bool) : List α → List α
  | [] => []
  | a :: as => insertBy le a (insertionSortBy le as)

/-- `sorted(freq.items(), key=itemgetter(1), reverse=True)[:pruneThreshold]`:
the frequency items stably sorted by count descending, then pruned. -/
def freqSortOf (iFile : List String) (pruneThreshold : ℕ) : List (String × ℕ) :=
  (insertionSortBy (fun a b => decide (b.2 ≤ a.2)) (countTokens iFile)).take
    pruneThreshold

/-- One `vocab[item[0]] = vocabID; rVocab[vocabID] = item[0]` step of
`parseCorpus` (the running `vocabID` counter is the third component). -/
def buildStep (acc : Dict String ℕ × Dict ℕ String × ℕ) (item : String × ℕ) :
    Dict String ℕ × Dict ℕ String × ℕ :=
  (dictSet acc.1 item.1 (acc.2.2 + 1), dictSet acc.2.1 (acc.2.2 + 1) item.1,
    acc.2.2 + 1)

/-- `parseCorpus(iFile, pruneThreshold)`: frequency count, histogram pruning,
vocabulary construction.  `none` models the `reduce` TypeError raised on an
empty sequence (no tokens at all, or a zero prune threshold). -/
def parseCorpus (iFile : List String) (pruneThreshold : ℕ) :
    Option (ℚ × Dict String ℕ × Dict ℕ String) :=
  let freq := countTokens iFile
  if freq.isEmpty then none
  else
    let wordCounts : ℕ := (freq.map (fun p => p.2)).sum
    let freqSort := freqSortOf iFile pruneThreshold
    if freqSort.isEmpty then none
    else
      let prunedWordCounts : ℕ := (freqSort.map (fun p => p.2)).sum
      let start : Dict String ℕ × Dict ℕ String × ℕ :=
        (dictSet [] "UNK" 0, dictSet [] 0 "UNK", 0)
      let built := freqSort.foldl buildStep start
      some ((prunedWordCounts : ℚ) / (wordCounts : ℚ), built.1, built.2.1)

/-! ### `readWordVectors` (EmbeddingAligner) -/

/-- Model of a word2vec binary file after parsing: the two header fields and
the `(token, vector)` records in file order (the read loop consumes exactly
`vocabSize` records). Vector components are modelled as rationals. -/
structure VectorFile where
  vocabSize : ℕ
  vectorSize : ℕ
  records : List (String × List ℚ)

/-- The temporary `vectorHash` of `readWordVectors`: records inserted in file
order, a later record for the same token overwriting an earlier one. -/
def buildVectorHash (records : List (String × List ℚ)) : Dict String (List ℚ) :=
  records.foldl (fun h r => dictSet h r.1 r.2) []

/-- `readWordVectors(vectorBin, vocab, dim)`.  `vocab` is the reverse
vocabulary `id -> token` whose keys are exactly `0 .. len-1`, modelled as the
list of tokens in id order.  `none` models the failed `assert vector_size ==
dim`.  The fallback row `unk = np.ones(dim)` is all-ones. -/
def readWordVectors (vectorBin : VectorFile) (vocab : List String) (dim : ℕ) :
    Option (ℤ × List (List ℚ)) :=
  if vectorBin.vectorSize = dim then
    let vectorHash := buildVectorHash vectorBin.records
    let unk : List ℚ := List.replicate dim 1
    -- `unkCount = -1` initially: the explicit UNK is not counted as unknown
    let unkCount : ℤ :=
      -1 + ((vocab.filter (fun w => (dictGet vectorHash w).isNone)).length : ℤ)
    let embeddings := vocab.map (fun w => (dictGet vectorHash w).getD unk)
    some (unkCount, embeddings)
  else none

/-! ### `getPhrasePairs` (PhrasePairExtractor) -/

/-- One training example: `(sEmbeddings[sPhrase], tEmbeddings[tPhrase],
tPhrase)` — source embedding rows, target embedding rows, target ids. -/
abbrev PhrasePair := List (List ℚ) × List (List ℚ) × List ℕ

/-- The per-line id sequence: `[vocab.get(w, 0) for w in seg.strip().split()]`. -/
def phraseIds (vocab : Dict String ℕ) (seg : String) : List ℕ :=
  (pySplitWs (pyTrim seg)).map (fun w => (dictGet vocab w).getD 0)

/-- The line loop of `getPhrasePairs`.  `line.strip().split("|||")` always has
at least one piece, so `line[0]` cannot fail; `line[1]` raises an IndexError
when the delimiter is missing, modelled by `none` (the exception aborts the
whole extraction).  Embedding matrices are modelled as row-lookup functions
`id -> row`. -/
def getPhrasePairs (tTable : List String) (sVocab tVocab : Dict String ℕ)
    (sEmbeddings tEmbeddings : ℕ → List ℚ) : Option (List PhrasePair) :=
  match tTable with
  | [] => some []
  | line :: rest =>
    let parts := pySplitBars (pyTrim line)
    match parts.get? 1 with
    | none => none
    | some tSeg =>
      let sPhrase := phraseIds sVocab parts.headI
      let tPhrase := phraseIds tVocab tSeg
      -- Don't include phrases that contain only OOVs
      if sPhrase.sum = 0 ∨ tPhrase.sum = 0 then
        getPhrasePairs rest sVocab tVocab sEmbeddings tEmbeddings
      else
        (getPhrasePairs rest sVocab tVocab sEmbeddings tEmbeddings).map
          (fun l => (sPhrase.map sEmbeddings, tPhrase.map tEmbeddings, tPhrase) :: l)

/-! ### `shuffle` / `getPartitions` (Partitioner) -/

/-- Deterministic model of the `random` module's global generator state.
`random.seed(seed)` replaces the state by a pure function of the seed alone;
each draw steps the state.  A linear-congruential step stands in for the
Mersenne twister — every property proved below depends only on the generator
being a deterministic function of the seed. -/
structure RNG where
  state : ℕ

/-- `random.seed(seed)`: the new global state is a pure function of `seed`. -/
def seedRNG (seed : ℕ) : RNG := ⟨seed⟩

/-- One draw below `n` (the index draw of `random.shuffle`). -/
def randBelow (n : ℕ) (g : RNG) : ℕ × RNG :=
  let s := (6364136223846793005 * g.state + 1442695040888963407) % 2 ^ 64
  (s % n, ⟨s⟩)

/-- Swap the entries at positions `i` and `j` (`l[i], l[j] = l[j], l[i]`). -/
def listSwap (l : List α) (i j : ℕ) : List α :=
  match l.get? i, l.get? j with
  | some x, some y => (l.set i y).set j x
  | _, _ => l

/-- The Fisher-Yates loop of `random.shuffle`:
`for i in reversed(range(1, len(l))): j = randbelow(i+1); swap l[i] l[j]`.
The fuel argument is the current `i`. -/
def shuffleGo (l : List α) (g : RNG) : ℕ → List α × RNG
  | 0 => (l, g)
  | i + 1 =>
    let (j, g') := randBelow (i + 2) g
    shuffleGo (listSwap l (i + 1) j) g' i

/-- `shuffle(l, seed)`: `random.seed(seed); random.shuffle(l)`.  The ambient
generator state is discarded by the reseeding, which is exactly what makes the
result independent of prior random-generator use. -/
def shuffle (l : List α) (seed : ℕ) (_ambient : RNG) : List α × RNG :=
  shuffleGo l (seedRNG seed) (l.length - 1)

/-- The Python split point `int(0.8 * n)`.  For every list length `n < 2^53`
the double rounding in `0.8 * n` never crosses an integer: writing `f` for the
IEEE-754 double nearest 0.8, `f = (4/5)·(1 + ε)` with `0 < ε < 2^-52`, so for
`n` not divisible by 5 the product's error `< 2^-50·n` cannot reach the ≥ 1/5
gap to the next integer, and for `n = 5k` the exact product `4k + k·2^-52·(…)`
lies strictly below half an ulp above the integer `4k`, hence rounds back to
`4k`.  So `int(0.8 * n) = ⌊4n/5⌋`, which is `4 * n / 5` on `ℕ`. -/
def trainCut (n : ℕ) : ℕ := 4 * n / 5

/-- `getPartitions(phrasePairs, seed)`: shuffle, then split 80/20. -/
def getPartitions (phrasePairs : List α) (seed : ℕ) (ambient : RNG) :
    (List α × List α) × RNG :=
  let sh := shuffle phrasePairs seed ambient
  ((sh.1.take (trainCut sh.1.length), sh.1.drop (trainCut sh.1.length)), sh.2)

/-! ### The training loop -/

/-- The mutable training-session state of the epoch loop.
`best = none` models the initial `best_dev_nll = np.inf`; `be = none` models
`s['be']` before its first assignment; `saved` is the epoch whose bundle
`saveModel` last wrote into the `best.mdl` slot (`none`: no checkpoint yet). -/
structure TrainState where
  clr : ℚ
  best : Option ℚ
  be : Option ℕ
  saved : Option ℕ
  deriving DecidableEq, Repr

/-- `dev_nll < best_dev_nll` (anything is below the initial `np.inf`). -/
def devImproves (best : Option ℚ) (nll : ℚ) : Bool :=
  match best with
  | none => true
  | some b => decide (nll < b)

/-- Lines 279-282: on strict improvement record the new best loss and epoch
and checkpoint the bundle (`saveModel` overwrites the `best.mdl` slot). -/
def updateBest (e : ℕ) (nll : ℚ) (st : TrainState) : TrainState :=
  if devImproves st.best nll then
    { st with best := some nll, be := some e, saved := some e }
  else st

/-- Line 285: `if abs(s['be'] - s['ce']) >= 3: s['clr'] *= 0.5`.  Reading
`s['be']` before any improvement would raise a KeyError; that branch is dead
in every run from the initial state (epoch 0 always improves on `np.inf`) and
is modelled as a no-op. -/
def decayLR (e : ℕ) (st : TrainState) : TrainState :=
  match st.be with
  | some b => if 3 ≤ ((b : ℤ) - (e : ℤ)).natAbs then
      { st with clr := st.clr * (1 / 2) }
    else st
  | none => st

/-- One full epoch body at epoch index `e` with dev loss `nll`: the batch
training calls only mutate the external model, then lines 279-285. -/
def epochStep (e : ℕ) (nll : ℚ) (st : TrainState) : TrainState :=
  decayLR e (updateBest e nll st)

/-- The break threshold `1e-5` (the exact rational 10⁻⁵; the float literal's
comparison behaviour on the learning rates reached here is the same). -/
def lrFloor : ℚ := mkRat 1 100000

/-- The epoch loop without the break, processing the dev losses in order
starting at epoch index `e` (used to state what a partial run computed). -/
def runEpochs (losses : List ℚ) (e : ℕ) (st : TrainState) : TrainState :=
  match losses with
  | [] => st
  | nll :: rest => runEpochs rest (e + 1) (epochStep e nll st)

/-- Lines 262-286: `for e in xrange(s['nepochs'])` with
`if s['clr'] < 1e-5: break`.  The external model's dev losses are supplied as
a list of length `nepochs`.  Returns the final state and the number of epochs
actually executed. -/
def runLoop : List ℚ → ℕ → TrainState → TrainState × ℕ
  | [], _, st => (st, 0)
  | nll :: rest, e, st =>
    let st' := epochStep e nll st
    if st'.clr < lrFloor then (st', 1)
    else
      let r := runLoop rest (e + 1) st'
      (r.1, r.2 + 1)

/-- The state at loop entry: `best_dev_nll = np.inf`, `s['clr'] = s['lr']`,
no best epoch recorded, nothing checkpointed. -/
def initState (lr : ℚ) : TrainState := ⟨lr, none, none, none⟩

/-! ### Lemmas about the dict model -/

/-- The keys of a dict, in insertion order. -/
def dictKeys (d : Dict κ ν) : List κ := d.map (fun p => p.1)

theorem dictGet_nil [DecidableEq κ] (k : κ) : dictGet ([] : Dict κ ν) k = none := rfl

theorem dictGet_cons [DecidableEq κ] (p : κ × ν) (d : Dict κ ν) (k : κ) :
    dictGet (p :: d) k = if p.1 = k then some p.2 else dictGet d k := by
  by_cases h : p.1 = k <;> simp [dictGet, List.find?_cons, h]

theorem dictGet_append [DecidableEq κ] (d₁ d₂ : Dict κ ν) (k : κ) :
    dictGet (d₁ ++ d₂) k = (dictGet d₁ k).or (dictGet d₂ k) := by
  simp only [dictGet, List.find?_append]
  cases d₁.find? (fun p => p.1 == k) <;> simp

theorem dictGet_eq_none_iff [DecidableEq κ] (d : Dict κ ν) (k : κ) :
    dictGet d k = none ↔ ∀ p ∈ d, p.1 ≠ k := by
  simp [dictGet, List.find?_eq_none]

/-- Assigning a key absent from the dict appends the new entry. -/
theorem dictSet_of_get_none [DecidableEq κ] {d : Dict κ ν} {k : κ}
    (h : dictGet d k = none) (v : ν) : dictSet d k v = d ++ [(k, v)] := by
  rw [dictGet_eq_none_iff] at h
  have hany : d.any (fun p => p.1 == k) = false := by
    simp only [List.any_eq_false, beq_iff_eq]
    exact h
  simp [dictSet, hany]

theorem any_of_dictGet_some [DecidableEq κ] {d : Dict κ ν} {k : κ} {c : ν}
    (hc : dictGet d k = some c) : d.any (fun p => p.1 == k) = true := by
  unfold dictGet at hc
  cases hfind : d.find? (fun p => p.1 == k) with
  | none => rw [hfind] at hc; cases hc
  | some q =>
    have hq := List.find?_some hfind
    exact List.any_eq_true.mpr ⟨q, List.mem_of_find?_eq_some hfind, hq⟩

theorem dictGet_none_of_any_false [DecidableEq κ] {d : Dict κ ν} {k : κ}
    (hany : d.any (fun p => p.1 == k) = false) : dictGet d k = none := by
  rw [dictGet_eq_none_iff]
  intro p hp
  have := List.any_eq_false.mp hany p hp
  simpa using this

theorem dictGet_dictSet [DecidableEq κ] (d : Dict κ ν) (k : κ) (v : ν) (k' : κ) :
    dictGet (dictSet d k v) k' = if k' = k then some v else dictGet d k' := by
  unfold dictSet
  by_cases hany : d.any (fun p => p.1 == k)
  · simp only [hany, if_true]
    by_cases hk : k' = k
    · subst hk
      simp only [if_pos rfl]
      induction d with
      | nil => simp at hany
      | cons p d ih =>
        by_cases hp : p.1 = k'
        · simp [dictGet_cons, hp]
        · have hany' : d.any (fun q => q.1 == k') = true := by
            simpa [List.any_cons, hp] using hany
          simpa [dictGet_cons, hp] using ih hany'
    · simp only [if_neg hk]
      clear hany
      induction d with
      | nil => rfl
      | cons p d ih =>
        by_cases hp : p.1 = k
        · have hne : ¬ k = k' := fun h => hk h.symm
          simp [dictGet_cons, hp, hne, ih]
        · simp [dictGet_cons, hp, ih]
  · simp only [Bool.not_eq_true] at hany
    simp only [hany, Bool.false_eq_true, if_false]
    rw [dictGet_append]
    have hnone : dictGet d k = none := dictGet_none_of_any_false hany
    by_cases hk : k' = k
    · subst hk
      simp [hnone, dictGet_cons]
    · cases hg : dictGet d k' with
      | none =>
        have hk2 : ¬ k = k' := fun h => hk h.symm
        simp [hg, dictGet_cons, hk2, hk, dictGet_nil]
      | some v' => simp [hg, hk]

/-- Overwriting an existing key leaves the key sequence unchanged. -/
theorem dictKeys_dictSet_of_some [DecidableEq κ] {d : Dict κ ν} {k : κ} {c : ν}
    (hc : dictGet d k = some c) (v : ν) :
    dictKeys (dictSet d k v) = dictKeys d := by
  unfold dictSet
  rw [any_of_dictGet_some hc, if_pos rfl]
  unfold dictKeys
  rw [List.map_map]
  apply List.map_congr_left
  intro p _
  by_cases hp : p.1 = k <;> simp [hp]

/-- Assigning a fresh key appends it to the key sequence. -/
theorem dictKeys_dictSet_of_none [DecidableEq κ] {d : Dict κ ν} {k : κ}
    (h : dictGet d k = none) (v : ν) :
    dictKeys (dictSet d k v) = dictKeys d ++ [k] := by
  rw [dictSet_of_get_none h]
  simp [dictKeys]

/-- An entry of a dict with unique keys is exactly what lookup returns. -/
theorem dictGet_of_mem [DecidableEq κ] {d : Dict κ ν} (hnd : (dictKeys d).Nodup)
    {p : κ × ν} (hp : p ∈ d) : dictGet d p.1 = some p.2 := by
  induction d with
  | nil => cases hp
  | cons q d ih =>
    rcases List.mem_cons.mp hp with h | h
    · subst h
      simp [dictGet_cons]
    · have hq : q.1 ≠ p.1 := by
        intro he
        have hmem : p.1 ∈ dictKeys d :=
          List.mem_map_of_mem (fun r => r.1) h
        rw [← he] at hmem
        exact (List.nodup_cons.mp hnd).1 hmem
      rw [dictGet_cons, if_neg hq]
      exact ih (List.nodup_cons.mp hnd).2 h

/-- Value-sum bookkeeping for overwriting a key of a dict with unique keys. -/
theorem dictSet_sum [DecidableEq κ] {d : Dict κ ℕ} (hnd : (dictKeys d).Nodup)
    (k : κ) (v : ℕ) {c : ℕ} (hc : dictGet d k = some c) :
    ((dictSet d k v).map (fun p => p.2)).sum + c = (d.map (fun p => p.2)).sum + v := by
  have hany := any_of_dictGet_some hc
  unfold dictSet
  rw [hany, if_pos rfl]
  clear hany
  induction d with
  | nil => cases hc
  | cons q d ih =>
    by_cases hq : q.1 = k
    · rw [dictGet_cons, if_pos hq] at hc
      have hknd : k ∉ dictKeys d := hq ▸ (List.nodup_cons.mp hnd).1
      have hmap : d.map (fun p => if p.1 = k then (k, v) else p) = d := by
        conv_rhs => rw [← List.map_id d]
        apply List.map_congr_left
        intro p hp
        have hpk : p.1 ≠ k := by
          intro he
          exact hknd (he ▸ List.mem_map_of_mem (fun r => r.1) hp)
        simp [hpk]
      rw [Option.some_inj] at hc
      simp only [List.map_cons, if_pos hq, hmap, List.sum_cons, ← hc]
      omega
    · rw [dictGet_cons, if_neg hq] at hc
      have := ih (List.nodup_cons.mp hnd).2 hc
      simp only [List.map_cons, if_neg hq, List.sum_cons]
      omega

/-! ### Lemmas about `countTokens` -/

/-- All whitespace tokens of the corpus, in reading order. -/
def flatTokens (iFile : List String) : List String :=
  (iFile.map pySplitWs).flatten

theorem dictGet_bumpCount (d : Dict String ℕ) (w w' : String) :
    dictGet (bumpCount d w) w' =
      if w' = w then some ((dictGet d w).getD 0 + 1) else dictGet d w' := by
  unfold bumpCount
  rw [dictGet_dictSet]

theorem dictSet_ne_nil [DecidableEq κ] (d : Dict κ ν) (k : κ) (v : ν) :
    dictSet d k v ≠ [] := by
  unfold dictSet
  split
  · intro h
    rcases d with _ | ⟨p, d⟩
    · simp at *
    · simp at h
  · simp

theorem foldl_bumpCount_eq_nil (ts : List String) (d : Dict String ℕ) :
    ts.foldl bumpCount d = [] ↔ d = [] ∧ ts = [] := by
  induction ts generalizing d with
  | nil => simp
  | cons t ts ih =>
    rw [List.foldl_cons, ih]
    simp [bumpCount, dictSet_ne_nil]

theorem foldl_bumpCount_getD (ts : List String) (d : Dict String ℕ) (w : String) :
    (dictGet (ts.foldl bumpCount d) w).getD 0 =
      (dictGet d w).getD 0 + ts.count w := by
  induction ts generalizing d with
  | nil => simp
  | cons t ts ih =>
    rw [List.foldl_cons, ih, dictGet_bumpCount, List.count_cons]
    by_cases hw : w = t
    · subst hw
      simp
      omega
    · have hne : (t == w) = false := by
        simpa using fun h => hw h.symm
      simp [hw, hne]

theorem dictKeys_bumpCount_nodup {d : Dict String ℕ}
    (hnd : (dictKeys d).Nodup) (w : String) :
    (dictKeys (bumpCount d w)).Nodup := by
  unfold bumpCount
  cases hg : dictGet d w with
  | some c => rw [dictKeys_dictSet_of_some hg]; exact hnd
  | none =>
    rw [dictKeys_dictSet_of_none hg]
    have hw : w ∉ dictKeys d := by
      rw [dictGet_eq_none_iff] at hg
      intro hmem
      rcases List.mem_map.mp hmem with ⟨p, hp, hpe⟩
      exact hg p hp hpe
    simp [List.nodup_append, hnd, hw]

theorem foldl_bumpCount_nodup (ts : List String) {d : Dict String ℕ}
    (hnd : (dictKeys d).Nodup) : (dictKeys (ts.foldl bumpCount d)).Nodup := by
  induction ts generalizing d with
  | nil => exact hnd
  | cons t ts ih => exact ih (dictKeys_bumpCount_nodup hnd t)

theorem bumpCount_sum {d : Dict String ℕ} (hnd : (dictKeys d).Nodup) (w : String) :
    ((bumpCount d w).map (fun p => p.2)).sum = (d.map (fun p => p.2)).sum + 1 := by
  unfold bumpCount
  cases hg : dictGet d w with
  | some c =>
    simp only [Option.getD_some]
    have h2 := dictSet_sum hnd w (c + 1) hg
    omega
  | none =>
    rw [dictSet_of_get_none hg]
    simp

theorem foldl_bumpCount_sum (ts : List String) {d : Dict String ℕ}
    (hnd : (dictKeys d).Nodup) :
    ((ts.foldl bumpCount d).map (fun p => p.2)).sum =
      (d.map (fun p => p.2)).sum + ts.length := by
  induction ts generalizing d with
  | nil => simp
  | cons t ts ih =>
    rw [List.foldl_cons, ih (dictKeys_bumpCount_nodup hnd t), bumpCount_sum hnd]
    simp only [List.length_cons]
    omega

theorem countTokens_eq_foldl (iFile : List String) :
    countTokens iFile = (flatTokens iFile).foldl bumpCount [] := by
  unfold countTokens flatTokens
  generalize ([] : Dict String ℕ) = d
  induction iFile generalizing d with
  | nil => simp
  | cons l ls ih => simp [List.foldl_append, ih]

theorem countTokens_getD (iFile : List String) (w : String) :
    (dictGet (countTokens iFile) w).getD 0 = (flatTokens iFile).count w := by
  rw [countTokens_eq_foldl, foldl_bumpCount_getD]
  simp [dictGet_nil]

theorem countTokens_nodup (iFile : List String) :
    (dictKeys (countTokens iFile)).Nodup := by
  rw [countTokens_eq_foldl]
  exact foldl_bumpCount_nodup _ (by simp [dictKeys])

theorem countTokens_eq_nil_iff (iFile : List String) :
    countTokens iFile = [] ↔ flatTokens iFile = [] := by
  rw [countTokens_eq_foldl, foldl_bumpCount_eq_nil]
  simp

theorem countTokens_sum (iFile : List String) :
    ((countTokens iFile).map (fun p => p.2)).sum = (flatTokens iFile).length := by
  rw [countTokens_eq_foldl, foldl_bumpCount_sum _ (by simp [dictKeys])]
  simp

/-- Every recorded frequency is the token's occurrence count in the corpus. -/
theorem countTokens_mem_eq_count {iFile : List String} {p : String × ℕ}
    (hp : p ∈ countTokens iFile) : p.2 = (flatTokens iFile).count p.1 := by
  have h1 := dictGet_of_mem (countTokens_nodup iFile) hp
  have h2 := countTokens_getD iFile p.1
  rw [h1] at h2
  simpa using h2

/-! ### Structural lemmas about `parseCorpus` -/

theorem insertBy_perm (le : α → α → Bool) (a : α) (l : List α) :
    List.Perm (insertBy le a l) (a :: l) := by
  induction l with
  | nil => exact List.Perm.refl _
  | cons b bs ih =>
    unfold insertBy
    split
    · exact List.Perm.refl _
    · exact (ih.cons b).trans (List.Perm.swap a b bs)

theorem insertionSortBy_perm (le : α → α → Bool) (l : List α) :
    List.Perm (insertionSortBy le l) l := by
  induction l with
  | nil => exact List.Perm.refl _
  | cons a as ih => exact (insertBy_perm le a _).trans (ih.cons a)

theorem foldl_bumpCount_get_none {ts : List String} {d : Dict String ℕ}
    {w : String} (h : dictGet d w = none) (hw : w ∉ ts) :
    dictGet (ts.foldl bumpCount d) w = none := by
  induction ts generalizing d with
  | nil => exact h
  | cons t ts ih =>
    rw [List.foldl_cons]
    have hwt : w ≠ t := fun he => hw (he ▸ List.mem_cons_self t ts)
    exact ih (by rw [dictGet_bumpCount, if_neg hwt]; exact h)
      (fun hm => hw (List.mem_cons_of_mem t hm))

theorem countTokens_get_none {iFile : List String} {w : String}
    (hw : w ∉ flatTokens iFile) : dictGet (countTokens iFile) w = none := by
  rw [countTokens_eq_foldl]
  exact foldl_bumpCount_get_none (by rfl) hw

/-- Every pruned entry is a frequency item of the corpus. -/
theorem freqSortOf_subset {iFile : List String} {t : ℕ} {p : String × ℕ}
    (hp : p ∈ freqSortOf iFile t) : p ∈ countTokens iFile := by
  unfold freqSortOf at hp
  exact (insertionSortBy_perm _ _).mem_iff.mp (List.mem_of_mem_take hp)

/-- The tokens of the pruned frequency list are distinct. -/
theorem freqSortOf_nodup (iFile : List String) (t : ℕ) :
    ((freqSortOf iFile t).map (fun p => p.1)).Nodup := by
  have hperm : List.Perm
      ((insertionSortBy (fun a b => decide (b.2 ≤ a.2))
        (countTokens iFile)).map (fun p => p.1))
      (dictKeys (countTokens iFile)) :=
    (insertionSortBy_perm _ _).map _
  have hnd := hperm.nodup_iff.mpr (countTokens_nodup iFile)
  unfold freqSortOf
  rw [List.map_take]
  exact List.Nodup.sublist (List.take_sublist _ _) hnd

/-- A pruned entry's token occurs in the corpus and its count is its exact
occurrence count (in particular it is positive). -/
theorem freqSortOf_count {iFile : List String} {t : ℕ} {p : String × ℕ}
    (hp : p ∈ freqSortOf iFile t) :
    p.2 = (flatTokens iFile).count p.1 ∧ 1 ≤ p.2 := by
  have hmem := freqSortOf_subset hp
  have hc := countTokens_mem_eq_count hmem
  refine ⟨hc, ?_⟩
  by_cases hin : p.1 ∈ flatTokens iFile
  · have := List.count_pos_iff.mpr hin
    omega
  · have := countTokens_get_none hin
    rw [dictGet_of_mem (countTokens_nodup iFile) hmem] at this
    cases this

/-- The reverse-vocabulary fold appends one entry `(c+i+1, tokenᵢ)` per kept
item: every id handed out is fresh because ids increase strictly. -/
theorem foldl_buildStep_rv (ts : List (String × ℕ)) (v : Dict String ℕ)
    (rv : Dict ℕ String) (c : ℕ) (hrv : ∀ i ∈ dictKeys rv, i ≤ c) :
    (ts.foldl buildStep (v, rv, c)).2.1 =
      rv ++ (ts.enumFrom (c + 1)).map (fun q => (q.1, q.2.1)) ∧
    (ts.foldl buildStep (v, rv, c)).2.2 = c + ts.length := by
  induction ts generalizing v rv c with
  | nil => simp
  | cons p ts ih =>
    rw [List.foldl_cons]
    have hfresh : dictGet rv (c + 1) = none := by
      rw [dictGet_eq_none_iff]
      intro q hq he
      have := hrv q.1 (List.mem_map_of_mem (fun r => r.1) hq)
      omega
    have hset : dictSet rv (c + 1) p.1 = rv ++ [(c + 1, p.1)] :=
      dictSet_of_get_none hfresh _
    have hbound : ∀ i ∈ dictKeys (rv ++ [(c + 1, p.1)]), i ≤ c + 1 := by
      intro i hi
      unfold dictKeys at hi
      rw [List.map_append, List.mem_append] at hi
      rcases hi with hi | hi
      · exact le_trans (hrv i hi) (Nat.le_succ c)
      · simp at hi
        omega
    have ih' := ih (dictSet v p.1 (c + 1)) (rv ++ [(c + 1, p.1)]) (c + 1) hbound
    have hb : buildStep (v, rv, c) p =
        (dictSet v p.1 (c + 1), dictSet rv (c + 1) p.1, c + 1) := rfl
    rw [hb, hset]
    refine ⟨?_, ?_⟩
    · rw [ih'.1, List.append_assoc]
      simp only [List.enumFrom_cons, List.map_cons]
      rfl
    · rw [ih'.2, List.length_cons]
      omega

/-- The forward-vocabulary fold appends one entry `(tokenᵢ, c+i+1)` per kept
item, provided all kept tokens are distinct and none is already a key. -/
theorem foldl_buildStep_vocab (ts : List (String × ℕ)) (v : Dict String ℕ)
    (rv : Dict ℕ String) (c : ℕ)
    (hfresh : ∀ p ∈ ts, dictGet v p.1 = none)
    (hnd : (ts.map (fun p => p.1)).Nodup) :
    (ts.foldl buildStep (v, rv, c)).1 =
      v ++ (ts.enumFrom (c + 1)).map (fun q => (q.2.1, q.1)) := by
  induction ts generalizing v rv c with
  | nil => simp
  | cons p ts ih =>
    rw [List.foldl_cons]
    have hset : dictSet v p.1 (c + 1) = v ++ [(p.1, c + 1)] :=
      dictSet_of_get_none (hfresh p (List.mem_cons_self p ts)) _
    have hfresh' : ∀ q ∈ ts, dictGet (v ++ [(p.1, c + 1)]) q.1 = none := by
      intro q hq
      rw [dictGet_append, hfresh q (List.mem_cons_of_mem p hq)]
      have hne : p.1 ≠ q.1 := by
        rw [List.map_cons, List.nodup_cons] at hnd
        intro he
        exact hnd.1 (he ▸ List.mem_map_of_mem (fun r => r.1) hq)
      simp [dictGet_cons, hne, dictGet_nil]
    have hnd' : (ts.map (fun p => p.1)).Nodup := by
      rw [List.map_cons, List.nodup_cons] at hnd
      exact hnd.2
    have ih' := ih (v ++ [(p.1, c + 1)]) (dictSet rv (c + 1) p.1) (c + 1)
      hfresh' hnd'
    have hb : buildStep (v, rv, c) p =
        (dictSet v p.1 (c + 1), dictSet rv (c + 1) p.1, c + 1) := rfl
    rw [hb, hset, ih', List.append_assoc]
    simp only [List.enumFrom_cons, List.map_cons]
    rfl

/-- Elimination form of a successful `parseCorpus`: the guards passed and the
three results are the coverage formula and the two constructed dicts. -/
theorem parseCorpus_some_elim {iFile : List String} {t : ℕ} {cov : ℚ}
    {v : Dict String ℕ} {rv : Dict ℕ String}
    (h : parseCorpus iFile t = some (cov, v, rv)) :
    countTokens iFile ≠ [] ∧ freqSortOf iFile t ≠ [] ∧
    cov = ((((freqSortOf iFile t).map (fun p => p.2)).sum : ℕ) : ℚ) /
      ((((countTokens iFile).map (fun p => p.2)).sum : ℕ) : ℚ) ∧
    v = ((freqSortOf iFile t).foldl buildStep
      ([("UNK", 0)], [(0, "UNK")], 0)).1 ∧
    rv = ((freqSortOf iFile t).foldl buildStep
      ([("UNK", 0)], [(0, "UNK")], 0)).2.1 := by
  unfold parseCorpus at h
  simp only at h
  by_cases h1 : (countTokens iFile).isEmpty
  · rw [if_pos h1] at h
    cases h
  · rw [if_neg h1] at h
    by_cases h2 : (freqSortOf iFile t).isEmpty
    · rw [if_pos h2] at h
      cases h
    · rw [if_neg h2] at h
      have hstart : (dictSet ([] : Dict String ℕ) "UNK" 0,
          dictSet ([] : Dict ℕ String) 0 "UNK", 0) =
          (([("UNK", 0)] : Dict String ℕ), ([(0, "UNK")] : Dict ℕ String),
            (0 : ℕ)) := rfl
      rw [hstart] at h
      injection h with h
      rw [Prod.mk.injEq, Prod.mk.injEq] at h
      obtain ⟨hcov, hv, hrv⟩ := h
      exact ⟨by simpa using h1, by simpa using h2, hcov.symm, hv.symm, hrv.symm⟩

theorem mem_of_dictGet_some [DecidableEq κ] {d : Dict κ ν} {k : κ} {v : ν}
    (h : dictGet d k = some v) : (k, v) ∈ d := by
  unfold dictGet at h
  cases hfind : d.find? (fun p => p.1 == k) with
  | none => rw [hfind] at h; cases h
  | some q =>
    rw [hfind] at h
    obtain ⟨a, b⟩ := q
    have hq1 : a = k := by simpa using List.find?_some hfind
    have hq2 : b = v := by simpa using h
    subst hq1
    subst hq2
    exact List.mem_of_find?_eq_some hfind

theorem mem_enumFrom_iff {l : List α} {n : ℕ} {q : ℕ × α} :
    q ∈ l.enumFrom n ↔ ∃ m, l[m]? = some q.2 ∧ q.1 = n + m := by
  obtain ⟨q1, q2⟩ := q
  rw [List.mem_iff_getElem?]
  simp only [List.getElem?_enumFrom]
  constructor
  · rintro ⟨m, hm⟩
    cases hl : l[m]? with
    | none => rw [hl] at hm; cases hm
    | some a =>
      rw [hl] at hm
      rw [show Option.map (fun a => (n + m, a)) (some a) = some (n + m, a)
        from rfl] at hm
      injection hm with hm
      injection hm with h1 h2
      exact ⟨m, by rw [hl, h2], h1.symm⟩
  · rintro ⟨m, hm, hq⟩
    refine ⟨m, ?_⟩
    rw [hm]
    simp [hq]

/-- The keys of the forward-vocabulary tail are exactly the kept tokens. -/
theorem dictKeys_venum (ts : List (String × ℕ)) (n : ℕ) :
    dictKeys ((ts.enumFrom n).map (fun q => (q.2.1, q.1))) =
      ts.map (fun p => p.1) := by
  unfold dictKeys
  rw [List.map_map]
  have hfun : ((fun p : String × ℕ => p.1) ∘
      (fun q : ℕ × (String × ℕ) => (q.2.1, q.1))) =
      ((fun p : String × ℕ => p.1) ∘ Prod.snd) := rfl
  rw [hfun, ← List.map_map, List.enumFrom_map_snd]

/-- The keys of the reverse-vocabulary tail are the ids `n, n+1, …`. -/
theorem dictKeys_renum (ts : List (String × ℕ)) (n : ℕ) :
    dictKeys ((ts.enumFrom n).map (fun q => (q.1, q.2.1))) =
      List.range' n ts.length := by
  unfold dictKeys
  rw [List.map_map]
  have hfun : ((fun p : ℕ × String => p.1) ∘
      (fun q : ℕ × (String × ℕ) => (q.1, q.2.1))) =
      (Prod.fst : ℕ × (String × ℕ) → ℕ) := rfl
  rw [hfun, List.enumFrom_map_fst]

/-- Every kept token occurs in the corpus. -/
theorem freqSortOf_token_mem {iFile : List String} {t : ℕ} {p : String × ℕ}
    (hp : p ∈ freqSortOf iFile t) : p.1 ∈ flatTokens iFile := by
  have h := freqSortOf_count hp
  exact List.count_pos_iff.mp (by omega)

/-- The two dicts built by a successful `parseCorpus`, explicitly: `"UNK"` at
id 0 followed by the kept tokens at ids `1..K`, provided the literal token
`"UNK"` does not occur in the corpus (otherwise the construction overwrites
the `"UNK"` entry of the forward vocabulary). -/
theorem parseCorpus_shapes {iFile : List String} {t : ℕ} {cov : ℚ}
    {v : Dict String ℕ} {rv : Dict ℕ String}
    (h : parseCorpus iFile t = some (cov, v, rv)) :
    rv = (0, "UNK") ::
      ((freqSortOf iFile t).enumFrom 1).map (fun q => (q.1, q.2.1)) ∧
    ((∀ p ∈ freqSortOf iFile t, p.1 ≠ "UNK") →
      v = ("UNK", 0) ::
        ((freqSortOf iFile t).enumFrom 1).map (fun q => (q.2.1, q.1))) := by
  obtain ⟨h1, h2, hcov, hv, hrv⟩ := parseCorpus_some_elim h
  constructor
  · rw [hrv,
      (foldl_buildStep_rv (freqSortOf iFile t) [("UNK", 0)] [(0, "UNK")] 0
        (by
          intro i hi
          simp [dictKeys] at hi
          omega)).1]
    rfl
  · intro hno
    have hfresh : ∀ p ∈ freqSortOf iFile t,
        dictGet ([("UNK", 0)] : Dict String ℕ) p.1 = none := by
      intro p hp
      rw [dictGet_cons, if_neg (fun he => hno p hp he.symm), dictGet_nil]
    rw [hv, foldl_buildStep_vocab (freqSortOf iFile t) [("UNK", 0)]
      [(0, "UNK")] 0 hfresh (freqSortOf_nodup iFile t)]
    rfl

/-- C2 (amended): for every vocabulary pair produced by `parseCorpus` on a
corpus in which the literal token `"UNK"` never occurs, `"UNK"` maps to id 0
forward and id 0 maps to `"UNK"` in reverse, the two dicts are exact inverses
of each other, and each holds at most `pruneThreshold + 1` entries. -/
theorem parseCorpus_vocab_invariants {iFile : List String} {t : ℕ} {cov : ℚ}
    {v : Dict String ℕ} {rv : Dict ℕ String}
    (h : parseCorpus iFile t = some (cov, v, rv))
    (hUNK : "UNK" ∉ flatTokens iFile) :
    dictGet v "UNK" = some 0 ∧ dictGet rv 0 = some "UNK" ∧
    (∀ w i, dictGet v w = some i ↔ dictGet rv i = some w) ∧
    v.length ≤ t + 1 ∧ rv.length ≤ t + 1 := by
  set fs := freqSortOf iFile t with hfs
  have hnoUNK : ∀ p ∈ fs, p.1 ≠ "UNK" := fun p hp he =>
    hUNK (he ▸ freqSortOf_token_mem hp)
  obtain ⟨hrvshape, hvshape0⟩ := parseCorpus_shapes h
  rw [← hfs] at hrvshape hvshape0
  have hvshape := hvshape0 hnoUNK
  have hnd : (fs.map (fun p => p.1)).Nodup := freqSortOf_nodup iFile t
  have hVnodup : (dictKeys ((fs.enumFrom 1).map (fun q => (q.2.1, q.1)))).Nodup := by
    rw [dictKeys_venum]
    exact hnd
  have hRnodup : (dictKeys ((fs.enumFrom 1).map (fun q => (q.1, q.2.1)))).Nodup := by
    rw [dictKeys_renum]
    exact List.nodup_range' _ _
  have hlen : fs.length ≤ t := by
    rw [hfs]
    unfold freqSortOf
    rw [List.length_take]
    omega
  refine ⟨?_, ?_, ?_, ?_, ?_⟩
  · rw [hvshape, dictGet_cons, if_pos rfl]
  · rw [hrvshape, dictGet_cons, if_pos rfl]
  · intro w i
    constructor
    · intro hw
      rw [hvshape, dictGet_cons] at hw
      by_cases hwe : ("UNK", 0).1 = w
      · rw [if_pos hwe] at hw
        injection hw with hw
        rw [hrvshape, ← hwe, ← hw, dictGet_cons, if_pos rfl]
      · rw [if_neg hwe] at hw
        have hmem := mem_of_dictGet_some hw
        rcases List.mem_map.mp hmem with ⟨q, hq, he⟩
        rw [Prod.mk.injEq] at he
        obtain ⟨hq1, hq2⟩ := he
        rcases mem_enumFrom_iff.mp hq with ⟨m, _, hqn⟩
        have hi : i = 1 + m := by rw [← hq2, hqn]
        rw [hrvshape, dictGet_cons, if_neg (show ¬ (0 : ℕ) = i by omega)]
        exact dictGet_of_mem hRnodup
          (List.mem_map.mpr ⟨q, hq, by rw [Prod.mk.injEq]; exact ⟨hq2, hq1⟩⟩)
    · intro hw
      rw [hrvshape, dictGet_cons] at hw
      by_cases hie : ((0 : ℕ), "UNK").1 = i
      · rw [if_pos hie] at hw
        injection hw with hw
        rw [hvshape, ← hw, dictGet_cons, if_pos rfl, ← hie]
      · rw [if_neg hie] at hw
        have hmem := mem_of_dictGet_some hw
        rcases List.mem_map.mp hmem with ⟨q, hq, he⟩
        rw [Prod.mk.injEq] at he
        obtain ⟨hq1, hq2⟩ := he
        rcases mem_enumFrom_iff.mp hq with ⟨m, hm, _⟩
        have hq2mem : q.2 ∈ fs := by
          rw [List.mem_iff_getElem?]
          exact ⟨m, hm⟩
        have hwU : ("UNK", 0).1 ≠ w := by
          rw [← hq2]
          exact fun he2 => hnoUNK q.2 hq2mem he2.symm
        rw [hvshape, dictGet_cons, if_neg hwU]
        exact dictGet_of_mem hVnodup
          (List.mem_map.mpr ⟨q, hq, by rw [Prod.mk.injEq]; exact ⟨hq2, hq1⟩⟩)
  · rw [hvshape]
    simp only [List.length_cons, List.length_map, List.enumFrom_length]
    omega
  · rw [hrvshape]
    simp only [List.length_cons, List.length_map, List.enumFrom_length]
    omega

theorem sum_take_le (l : List ℕ) (n : ℕ) : (l.take n).sum ≤ l.sum := by
  conv_rhs => rw [← List.take_append_drop n l]
  rw [List.sum_append]
  exact Nat.le_add_right _ _

/-- The kept token mass: summing the corpus occurrence counts of the tokens
listed in the reverse vocabulary under nonzero ids recovers exactly the pruned
frequency total. -/
theorem parseCorpus_kept_mass {iFile : List String} {t : ℕ} {cov : ℚ}
    {v : Dict String ℕ} {rv : Dict ℕ String}
    (h : parseCorpus iFile t = some (cov, v, rv)) :
    ((rv.filter (fun p => p.1 != 0)).map
        (fun p => (flatTokens iFile).count p.2)).sum =
      ((freqSortOf iFile t).map (fun p => p.2)).sum := by
  obtain ⟨hrvshape, _⟩ := parseCorpus_shapes h
  rw [hrvshape]
  rw [show ((0, "UNK") ::
      ((freqSortOf iFile t).enumFrom 1).map (fun q => (q.1, q.2.1))).filter
        (fun p => p.1 != 0) =
      (((freqSortOf iFile t).enumFrom 1).map (fun q => (q.1, q.2.1))).filter
        (fun p => p.1 != 0) from by simp]
  have hkeep : ∀ p ∈ ((freqSortOf iFile t).enumFrom 1).map
      (fun q => (q.1, q.2.1)), (p.1 != 0) = true := by
    intro p hp
    rcases List.mem_map.mp hp with ⟨q, hq, he⟩
    rcases mem_enumFrom_iff.mp hq with ⟨m, _, hqn⟩
    rw [← he]
    simp only [bne_iff_ne]
    omega
  rw [List.filter_eq_self.mpr hkeep, List.map_map]
  have hcomp : ((fun p : ℕ × String => (flatTokens iFile).count p.2) ∘
      (fun q : ℕ × (String × ℕ) => (q.1, q.2.1))) =
      ((fun p : String × ℕ => (flatTokens iFile).count p.1) ∘ Prod.snd) := rfl
  rw [hcomp, ← List.map_map, List.enumFrom_map_snd]
  exact congrArg List.sum
    (List.map_congr_left (fun p hp => ((freqSortOf_count hp).1).symm))

/-- C8: for a successful parse the coverage ratio is (kept token mass) /
(total token count) and lies in `(0, 1]`; a corpus with no tokens at all makes
`parseCorpus` fail instead of returning a coverage. -/
theorem parseCorpus_coverage (iFile : List String) (t : ℕ) :
    (flatTokens iFile = [] → parseCorpus iFile t = none) ∧
    (∀ cov v rv, parseCorpus iFile t = some (cov, v, rv) →
      cov = ((((rv.filter (fun p => p.1 != 0)).map
          (fun p => (flatTokens iFile).count p.2)).sum : ℕ) : ℚ) /
        (((flatTokens iFile).length : ℕ) : ℚ) ∧
      0 < cov ∧ cov ≤ 1) := by
  constructor
  · intro hflat
    have hcnt : countTokens iFile = [] := (countTokens_eq_nil_iff iFile).mpr hflat
    unfold parseCorpus
    rw [hcnt]
    rfl
  · intro cov v rv hsome
    obtain ⟨h1, h2, hcov, hv, hrv⟩ := parseCorpus_some_elim hsome
    have hmass := parseCorpus_kept_mass hsome
    have hT : ((countTokens iFile).map (fun p => p.2)).sum =
        (flatTokens iFile).length := countTokens_sum iFile
    have hS1 : 1 ≤ ((freqSortOf iFile t).map (fun p => p.2)).sum := by
      cases hfs : freqSortOf iFile t with
      | nil => exact absurd hfs h2
      | cons p rest =>
        have hp1 : 1 ≤ p.2 :=
          (freqSortOf_count (hfs ▸ List.mem_cons_self p rest)).2
        rw [List.map_cons, List.sum_cons]
        omega
    have hST : ((freqSortOf iFile t).map (fun p => p.2)).sum ≤
        ((countTokens iFile).map (fun p => p.2)).sum := by
      unfold freqSortOf
      rw [List.map_take]
      refine le_trans (sum_take_le _ _) ?_
      exact le_of_eq (List.Perm.sum_eq ((insertionSortBy_perm _ _).map _))
    refine ⟨?_, ?_, ?_⟩
    · rw [hcov, hmass, hT]
    · rw [hcov]
      apply div_pos
      · exact_mod_cast hS1
      · exact_mod_cast lt_of_lt_of_le hS1 hST
    · rw [hcov]
      rw [div_le_one (by exact_mod_cast lt_of_lt_of_le hS1 hST)]
      exact_mod_cast hST

/-- C2 counterexample: on the corpus whose only token is the literal string
`"UNK"`, `parseCorpus` overwrites the reserved forward entry: the produced
forward vocabulary maps `"UNK"` to id 1, not id 0 (while the reverse
vocabulary still maps 0 to `"UNK"`), so the forward and reverse mappings are
not inverses and the claimed invariant fails as stated. -/
theorem parseCorpus_vocab_invariants_counterexample :
    (parseCorpus ["UNK UNK"] 5).map
      (fun r => (dictGet r.2.1 "UNK", dictGet r.2.2 0)) =
      some (some 1, some "UNK") ∧ (some 1 : Option ℕ) ≠ some 0 := by
  constructor
  · decide
  · decide

/-- Witness for the amended C2 on the spec's own two-line corpus scenario. -/
theorem parseCorpus_vocab_invariants_witness :
    dictGet ([("UNK", 0), ("a", 1), ("b", 2)] : Dict String ℕ) "UNK" = some 0 ∧
    dictGet ([(0, "UNK"), (1, "a"), (2, "b")] : Dict ℕ String) 0 = some "UNK" ∧
    ([("UNK", 0), ("a", 1), ("b", 2)] : Dict String ℕ).length ≤ 10 + 1 ∧
    ([(0, "UNK"), (1, "a"), (2, "b")] : Dict ℕ String).length ≤ 10 + 1 := by
  have h : parseCorpus ["a b a", "a"] 10 =
      some ((((4 : ℕ) : ℚ)) / (((4 : ℕ) : ℚ)),
        [("UNK", 0), ("a", 1), ("b", 2)],
        [(0, "UNK"), (1, "a"), (2, "b")]) := by rfl
  obtain ⟨h1, h2, _, h4, h5⟩ := parseCorpus_vocab_invariants h (by decide)
  exact ⟨h1, h2, h4, h5⟩

/-- Witness for C8: the empty corpus fails, and on the spec's two-line corpus
scenario the coverage (here 4/4) is positive and at most one. -/
theorem parseCorpus_coverage_witness :
    parseCorpus [""] 5 = none ∧
    (0 : ℚ) < (((4 : ℕ) : ℚ)) / (((4 : ℕ) : ℚ)) ∧
    (((4 : ℕ) : ℚ)) / (((4 : ℕ) : ℚ)) ≤ 1 := by
  have h : parseCorpus ["a b a", "a"] 10 =
      some ((((4 : ℕ) : ℚ)) / (((4 : ℕ) : ℚ)),
        [("UNK", 0), ("a", 1), ("b", 2)],
        [(0, "UNK"), (1, "a"), (2, "b")]) := by rfl
  have hB := (parseCorpus_coverage ["a b a", "a"] 10).2 _ _ _ h
  exact ⟨(parseCorpus_coverage [""] 5).1 (by decide), hB.2.1, hB.2.2⟩

/-! ### Theorems about `readWordVectors` -/

/-- C6: the embedding matrix has exactly one row per vocabulary id; a
vocabulary token absent from the parsed embedding source gets the fixed
all-ones fallback row of the expected dimension, and a present token gets its
parsed vector. -/
theorem readWordVectors_matrix {vf : VectorFile} {vocab : List String}
    {dim : ℕ} {u : ℤ} {M : List (List ℚ)}
    (h : readWordVectors vf vocab dim = some (u, M)) :
    M.length = vocab.length ∧
    ∀ (i : ℕ) (w : String), vocab[i]? = some w →
      ((dictGet (buildVectorHash vf.records) w = none →
          M[i]? = some (List.replicate dim 1)) ∧
       (∀ vec, dictGet (buildVectorHash vf.records) w = some vec →
          M[i]? = some vec)) := by
  unfold readWordVectors at h
  by_cases hd : vf.vectorSize = dim
  · rw [if_pos hd] at h
    simp only at h
    injection h with h
    rw [Prod.mk.injEq] at h
    obtain ⟨hu, hM⟩ := h
    constructor
    · rw [← hM, List.length_map]
    · intro i w hw
      have hMi : M[i]? = some ((dictGet (buildVectorHash vf.records) w).getD
          (List.replicate dim 1)) := by
        rw [← hM, List.getElem?_map, hw]
        rfl
      constructor
      · intro hnone
        rw [hMi, hnone]
        rfl
      · intro vec hvec
        rw [hMi, hvec]
        rfl
  · rw [if_neg hd] at h
    cases h

/-- Witness for C6 at a two-record scenario: three vocabulary ids, one token
present in the source, the others absent. -/
theorem readWordVectors_matrix_witness :
    ([[1, 1], [2, 3], [1, 1]] : List (List ℚ)).length =
      (["UNK", "a", "b"]).length ∧
    ([[1, 1], [2, 3], [1, 1]] : List (List ℚ))[0]? =
      some (List.replicate 2 1) ∧
    ([[1, 1], [2, 3], [1, 1]] : List (List ℚ))[1]? = some [2, 3] := by
  have h : readWordVectors ⟨2, 2, [("a", [2, 3])]⟩ ["UNK", "a", "b"] 2 =
      some (1, [[1, 1], [2, 3], [1, 1]]) := by rfl
  obtain ⟨h1, h2⟩ := readWordVectors_matrix h
  exact ⟨h1, (h2 0 "UNK" (by rfl)).1 (by rfl), (h2 1 "a" (by rfl)).2 [2, 3] (by rfl)⟩

/-- C7 counterexample: when the token `"UNK"` is itself present in the
embedding source, `readWordVectors` returns `unkCount = -1`, whereas the
number of vocabulary entries other than the UNK entry without a vector is 0
— the claimed equality fails because the −1 initialisation assumed a miss
that did not happen. -/
theorem readWordVectors_unkCount_counterexample :
    readWordVectors ⟨1, 1, [("UNK", [1])]⟩ ["UNK"] 1 = some (-1, [[1]]) ∧
    (((["UNK"].drop 1).filter
      (fun w => (dictGet (buildVectorHash [("UNK", [1])]) w).isNone)).length : ℤ)
      = 0 ∧
    (-1 : ℤ) ≠ 0 := by
  refine ⟨by rfl, by rfl, by decide⟩

/-- C7 (amended): provided the vocabulary's explicit UNK entry (id 0) is
absent from the embedding source — the single guaranteed miss the −1
initialisation assumes — `unkCount` equals the number of remaining vocabulary
entries with no vector in the source. -/
theorem readWordVectors_unkCount {vf : VectorFile} {unkTok : String}
    {restVocab : List String} {dim : ℕ} {u : ℤ} {M : List (List ℚ)}
    (h : readWordVectors vf (unkTok :: restVocab) dim = some (u, M))
    (hmiss : dictGet (buildVectorHash vf.records) unkTok = none) :
    u = ((restVocab.filter
      (fun w => (dictGet (buildVectorHash vf.records) w).isNone)).length : ℤ) := by
  unfold readWordVectors at h
  by_cases hd : vf.vectorSize = dim
  · rw [if_pos hd] at h
    simp only at h
    injection h with h
    rw [Prod.mk.injEq] at h
    obtain ⟨hu, _⟩ := h
    rw [← hu, List.filter_cons, show ((dictGet (buildVectorHash vf.records)
      unkTok).isNone = true) from by rw [hmiss]; rfl]
    simp only [if_true, List.length_cons]
    push_cast
    ring
  · rw [if_neg hd] at h
    cases h

/-- Witness for the amended C7: one present token, one absent token besides
the absent UNK entry gives `unkCount = 1`. -/
theorem readWordVectors_unkCount_witness :
    (1 : ℤ) = ((["a", "b"].filter
      (fun w => (dictGet (buildVectorHash [("a", ([2, 3] : List ℚ))]) w).isNone)).length : ℤ) := by
  have h : readWordVectors ⟨2, 2, [("a", [2, 3])]⟩ ["UNK", "a", "b"] 2 =
      some (1, [[1, 1], [2, 3], [1, 1]]) := by rfl
  exact readWordVectors_unkCount h (by rfl)

/-- C9: a mismatch between the header's declared vector dimension and the
expected dimension makes `readWordVectors` fail (the `assert`) without
producing any matrix. -/
theorem readWordVectors_dim_mismatch (vf : VectorFile) (vocab : List String)
    (dim : ℕ) (h : vf.vectorSize ≠ dim) :
    readWordVectors vf vocab dim = none := by
  unfold readWordVectors
  rw [if_neg h]

/-- Witness for C9: a 300-dimensional source against an expected dimension of
50 produces no matrix. -/
theorem readWordVectors_dim_mismatch_witness :
    readWordVectors ⟨2, 300, []⟩ ["UNK"] 50 = none :=
  readWordVectors_dim_mismatch ⟨2, 300, []⟩ ["UNK"] 50 (by decide)

/-! ### Theorems about `getPhrasePairs` -/

/-- Spec-side description (§4.3) of one phrase-table line: split at the
delimiter, tokenize both segments, map tokens through the vocabularies with
unknown → 0, discard the line when either id sequence is entirely zeros
(every token on that side OOV), otherwise keep (source embedding rows, target
embedding rows, target ids). -/
def specPhrasePair (sVocab tVocab : Dict String ℕ)
    (sEmbeddings tEmbeddings : ℕ → List ℚ) (line : String) : Option PhrasePair :=
  let parts := pySplitBars (pyTrim line)
  let sIds := phraseIds sVocab (parts.getD 0 "")
  let tIds := phraseIds tVocab (parts.getD 1 "")
  if sIds.all (fun i => i == 0) || tIds.all (fun i => i == 0) then none
  else some (sIds.map sEmbeddings, tIds.map tEmbeddings, tIds)

/-- C5: on a phrase table whose lines all contain the delimiter,
`getPhrasePairs` succeeds and keeps exactly the lines whose source-id
sequence and target-id sequence are not entirely zeros, each yielding the
per-token lookup ids and the corresponding embedding rows. -/
theorem getPhrasePairs_filter (tTable : List String)
    (sVocab tVocab : Dict String ℕ) (sE tE : ℕ → List ℚ)
    (hwf : ∀ line ∈ tTable, 2 ≤ (pySplitBars (pyTrim line)).length) :
    getPhrasePairs tTable sVocab tVocab sE tE =
      some (tTable.filterMap (specPhrasePair sVocab tVocab sE tE)) := by
  induction tTable with
  | nil => rfl
  | cons line rest ih =>
    have h2 := hwf line (List.mem_cons_self line rest)
    have ih' := ih (fun l hl => hwf l (List.mem_cons_of_mem line hl))
    obtain ⟨p0, parts', hparts⟩ : ∃ p0 parts',
        pySplitBars (pyTrim line) = p0 :: parts' := by
      cases hp : pySplitBars (pyTrim line) with
      | nil => rw [hp] at h2; simp at h2
      | cons a b => exact ⟨a, b, rfl⟩
    obtain ⟨p1, parts'', hparts'⟩ : ∃ p1 parts'', parts' = p1 :: parts'' := by
      cases hp : parts' with
      | nil => rw [hp] at hparts; rw [hparts] at h2; simp at h2
      | cons a b => exact ⟨a, b, rfl⟩
    rw [hparts'] at hparts
    unfold getPhrasePairs specPhrasePair
    rw [List.filterMap_cons]
    simp only [hparts, List.get?_cons_succ, List.get?_cons_zero, List.headI,
      List.getD_cons_zero, List.getD_cons_succ]
    have hsum : ∀ l : List ℕ, l.sum = 0 ↔ (l.all (fun i => i == 0)) = true := by
      intro l
      rw [List.sum_eq_zero_iff, List.all_eq_true]
      constructor
      · intro hz x hx
        simpa using hz x hx
      · intro hz x hx
        simpa using hz x hx
    by_cases hc : (phraseIds sVocab p0).sum = 0 ∨ (phraseIds tVocab p1).sum = 0
    · rw [if_pos hc, ih']
      have hb : ((phraseIds sVocab p0).all (fun i => i == 0) ||
          (phraseIds tVocab p1).all (fun i => i == 0)) = true := by
        rcases hc with hc | hc
        · rw [Bool.or_eq_true]
          exact Or.inl ((hsum _).mp hc)
        · rw [Bool.or_eq_true]
          exact Or.inr ((hsum _).mp hc)
      rw [hb]
      rfl
    · rw [if_neg hc, ih']
      have hb : ((phraseIds sVocab p0).all (fun i => i == 0) ||
          (phraseIds tVocab p1).all (fun i => i == 0)) = false := by
        rw [Bool.or_eq_false_iff]
        push_neg at hc
        constructor
        · cases hall : (phraseIds sVocab p0).all (fun i => i == 0)
          · rfl
          · exact absurd ((hsum _).mpr hall) hc.1
        · cases hall : (phraseIds tVocab p1).all (fun i => i == 0)
          · rfl
          · exact absurd ((hsum _).mpr hall) hc.2
      rw [hb]
      rfl

/-- C10: a single line without the delimiter (its split has fewer than two
segments — e.g. an empty line) aborts the whole extraction with an
IndexError, modelled as `none`: no pair list is produced at all. -/
theorem getPhrasePairs_malformed (tTable : List String)
    (sVocab tVocab : Dict String ℕ) (sE tE : ℕ → List ℚ)
    (h : ∃ line ∈ tTable, (pySplitBars (pyTrim line)).length ≤ 1) :
    getPhrasePairs tTable sVocab tVocab sE tE = none := by
  induction tTable with
  | nil =>
    rcases h with ⟨l, hl, _⟩
    cases hl
  | cons line rest ih =>
    unfold getPhrasePairs
    rcases h with ⟨l, hl, hlen⟩
    rcases List.mem_cons.mp hl with he | hmem
    · subst he
      simp only [show (pySplitBars (pyTrim l)).get? 1 = none from
        List.get?_eq_none.mpr hlen]
    · have hrec := ih ⟨l, hmem, hlen⟩
      cases hget : (pySplitBars (pyTrim line)).get? 1 with
      | none => simp only [hget]
      | some tSeg =>
        simp only [hget]
        split
        · exact hrec
        · rw [hrec]
          rfl

/-- Witness for C5: `"a b ||| c"` is kept with ids and embedding rows from
per-token lookup (`a` mapped, `b` unknown → 0), `"x ||| y"` is dropped (source
all OOV), `"a ||| y"` is dropped (target all OOV). -/
theorem getPhrasePairs_filter_witness :
    getPhrasePairs ["a b ||| c", "x ||| y", "a ||| y"] [("a", 1)] [("c", 2)]
      (fun i => [(i : ℚ)]) (fun i => [(i : ℚ)]) =
      some [([[((1 : ℕ) : ℚ)], [((0 : ℕ) : ℚ)]], [[((2 : ℕ) : ℚ)]], [2])] := by
  have h := getPhrasePairs_filter ["a b ||| c", "x ||| y", "a ||| y"]
    [("a", 1)] [("c", 2)] (fun i => [(i : ℚ)]) (fun i => [(i : ℚ)]) (by decide)
  rw [h]
  rfl

/-- Witness for C10: an empty line (no delimiter) aborts the extraction even
though the other line is well formed. -/
theorem getPhrasePairs_malformed_witness :
    getPhrasePairs ["a ||| b", ""] [] [] (fun _ => []) (fun _ => []) = none :=
  getPhrasePairs_malformed ["a ||| b", ""] [] [] (fun _ => []) (fun _ => [])
    ⟨"", by decide, by decide⟩

/-! ### Theorems about `shuffle` / `getPartitions` -/

theorem count_set [DecidableEq α] {l : List α} {i : ℕ} {c : α}
    (hget : l.get? i = some c) (a b : α) :
    (l.set i a).count b + (if c = b then 1 else 0) =
      l.count b + (if a = b then 1 else 0) := by
  induction l generalizing i with
  | nil => cases hget
  | cons x xs ih =>
    cases i with
    | zero =>
      rw [List.get?_cons_zero] at hget
      injection hget with hget
      subst hget
      simp only [List.set_cons_zero, List.count_cons, beq_iff_eq]
      split_ifs <;> omega
    | succ n =>
      rw [List.get?_cons_succ] at hget
      have hrec := ih hget
      simp only [List.set_cons_succ, List.count_cons, beq_iff_eq]
      split_ifs at hrec ⊢ <;> omega

theorem listSwap_perm (l : List α) (i j : ℕ) :
    List.Perm (listSwap l i j) l := by
  unfold listSwap
  cases hx : l.get? i with
  | none => exact List.Perm.refl l
  | some x =>
    cases hy : l.get? j with
    | none => exact List.Perm.refl l
    | some y =>
      haveI := Classical.decEq α
      obtain ⟨hj, hgj⟩ := List.get?_eq_some.mp hy
      have hj' : j < (l.set i y).length := by simpa using hj
      have hy' : (l.set i y).get? j = some y := by
        rw [List.get?_eq_some]
        refine ⟨hj', ?_⟩
        rw [List.get_set]
        by_cases hij : i = j
        · simp [hij]
        · simp only [hij, if_false]
          exact hgj
      rw [List.perm_iff_count]
      intro b
      show ((l.set i y).set j x).count b = l.count b
      have c1 := count_set hy' x b
      have c2 := count_set hx y b
      split_ifs at c1 c2 <;> omega

theorem shuffleGo_perm (n : ℕ) : ∀ (l : List α) (g : RNG),
    List.Perm (shuffleGo l g n).1 l := by
  induction n with
  | zero => intro l g; exact List.Perm.refl l
  | succ i ih =>
    intro l g
    unfold shuffleGo
    exact (ih _ _).trans (listSwap_perm l (i + 1) (randBelow (i + 2) g).1)

theorem shuffle_perm (l : List α) (seed : ℕ) (g : RNG) :
    List.Perm (shuffle l seed g).1 l :=
  shuffleGo_perm (l.length - 1) l (seedRNG seed)

theorem shuffle_length (l : List α) (seed : ℕ) (g : RNG) :
    (shuffle l seed g).1.length = l.length :=
  (shuffle_perm l seed g).length_eq

/-- C4: `getPartitions` is deterministic — the reseeding makes the split
independent of the ambient generator state; the train set is the first
`int(0.8·N) = ⌊4N/5⌋` elements of the shuffled list and the dev set the
remaining `N − ⌊4N/5⌋`; they are disjoint by position, their concatenation
reconstructs the shuffled list, which is a permutation of the input; and an
empty input yields two empty sets. -/
theorem getPartitions_spec (l : List α) (seed : ℕ) :
    (∀ g₁ g₂ : RNG, getPartitions l seed g₁ = getPartitions l seed g₂) ∧
    (∀ g : RNG,
      (getPartitions l seed g).1.1 =
        (shuffle l seed g).1.take (trainCut l.length) ∧
      (getPartitions l seed g).1.2 =
        (shuffle l seed g).1.drop (trainCut l.length) ∧
      (getPartitions l seed g).1.1.length = trainCut l.length ∧
      (getPartitions l seed g).1.2.length = l.length - trainCut l.length ∧
      (getPartitions l seed g).1.1 ++ (getPartitions l seed g).1.2 =
        (shuffle l seed g).1 ∧
      List.Perm (shuffle l seed g).1 l) ∧
    (∀ g : RNG, (getPartitions ([] : List α) seed g).1 = ([], [])) := by
  refine ⟨fun g₁ g₂ => rfl, fun g => ?_, fun g => by
    have hnil : (shuffle ([] : List α) seed g).1 = [] :=
      List.Perm.eq_nil (shuffle_perm [] seed g)
    show ((shuffle ([] : List α) seed g).1.take
        (trainCut (shuffle ([] : List α) seed g).1.length),
      (shuffle ([] : List α) seed g).1.drop
        (trainCut (shuffle ([] : List α) seed g).1.length)) = ([], [])
    rw [hnil]
    simp⟩
  have hlen := shuffle_length l seed g
  have hcut : trainCut l.length ≤ l.length := by
    unfold trainCut
    omega
  refine ⟨?_, ?_, ?_, ?_, ?_, shuffle_perm l seed g⟩
  · show (shuffle l seed g).1.take (trainCut (shuffle l seed g).1.length) =
      (shuffle l seed g).1.take (trainCut l.length)
    rw [hlen]
  · show (shuffle l seed g).1.drop (trainCut (shuffle l seed g).1.length) =
      (shuffle l seed g).1.drop (trainCut l.length)
    rw [hlen]
  · show ((shuffle l seed g).1.take
      (trainCut (shuffle l seed g).1.length)).length = trainCut l.length
    rw [hlen, List.length_take, hlen]
    omega
  · show ((shuffle l seed g).1.drop
      (trainCut (shuffle l seed g).1.length)).length =
      l.length - trainCut l.length
    rw [hlen, List.length_drop, hlen]
  · show (shuffle l seed g).1.take (trainCut (shuffle l seed g).1.length) ++
      (shuffle l seed g).1.drop (trainCut (shuffle l seed g).1.length) =
      (shuffle l seed g).1
    rw [List.take_append_drop]

/-! ### The training loop: checkpoint bookkeeping -/

/-- The minimum dev loss of a (possibly empty) run prefix. -/
def listMin : List ℚ → Option ℚ
  | [] => none
  | x :: xs =>
    match listMin xs with
    | none => some x
    | some m => some (if x ≤ m then x else m)

/-- The epoch index of the first occurrence of the minimum dev loss. -/
def firstMinIdx : List ℚ → ℕ
  | [] => 0
  | x :: xs =>
    match listMin xs with
    | none => 0
    | some m => if x ≤ m then 0 else firstMinIdx xs + 1

/-- The checkpoint bookkeeping invariant: after the epochs whose dev losses
are `hist`, either no epoch has run (`hist` empty, nothing recorded) or the
recorded best loss, best epoch and checkpointed epoch all name the first
epoch attaining the minimum loss so far. -/
def GoodState (hist : List ℚ) (st : TrainState) : Prop :=
  (hist = [] ∧ st.best = none ∧ st.be = none ∧ st.saved = none) ∨
  (∃ (i : ℕ) (hi : i < hist.length),
    st.best = some (hist.get ⟨i, hi⟩) ∧ st.be = some i ∧ st.saved = some i ∧
    (∀ (j : ℕ) (hj : j < hist.length), hist.get ⟨i, hi⟩ ≤ hist.get ⟨j, hj⟩) ∧
    (∀ (j : ℕ) (hj : j < hist.length), j < i →
      hist.get ⟨i, hi⟩ < hist.get ⟨j, hj⟩))

theorem decayLR_projs (e : ℕ) (st : TrainState) :
    (decayLR e st).best = st.best ∧ (decayLR e st).be = st.be ∧
    (decayLR e st).saved = st.saved := by
  unfold decayLR
  split
  · split
    · exact ⟨rfl, rfl, rfl⟩
    · exact ⟨rfl, rfl, rfl⟩
  · exact ⟨rfl, rfl, rfl⟩

theorem get_append_fst {l₁ l₂ : List α} {j : ℕ} (hj : j < l₁.length)
    (hj2 : j < (l₁ ++ l₂).length) :
    (l₁ ++ l₂).get ⟨j, hj2⟩ = l₁.get ⟨j, hj⟩ := by
  rw [List.get_eq_getElem, List.get_eq_getElem, List.getElem_append_left hj]

theorem get_append_last {l₁ : List α} {x : α}
    (h : l₁.length < (l₁ ++ [x]).length) :
    (l₁ ++ [x]).get ⟨l₁.length, h⟩ = x := by
  rw [List.get_eq_getElem, List.getElem_append_right (le_refl l₁.length)]
  simp

theorem updateBest_good {hist : List ℚ} {st : TrainState}
    (hg : GoodState hist st) (nll : ℚ) :
    GoodState (hist ++ [nll]) (updateBest hist.length nll st) := by
  have hlen : hist.length < (hist ++ [nll]).length := by simp
  unfold updateBest
  by_cases himp : devImproves st.best nll = true
  · rw [if_pos himp]
    right
    refine ⟨hist.length, hlen, ?_, rfl, rfl, ?_, ?_⟩
    · rw [get_append_last]
    · intro j hj
      rw [get_append_last]
      rcases Nat.lt_or_ge j hist.length with hjl | hjr
      · rw [get_append_fst hjl]
        rcases hg with ⟨hnil, _, _, _⟩ | ⟨i, hi, hbest, _, _, hmin, _⟩
        · rw [hnil] at hjl
          cases hjl
        · rw [hbest] at himp
          unfold devImproves at himp
          have hlt : nll < hist.get ⟨i, hi⟩ := by simpa using himp
          exact le_of_lt (lt_of_lt_of_le hlt (hmin j hjl))
      · have : j = hist.length := by
          rw [List.length_append] at hj
          simp at hj
          omega
        subst this
        rw [get_append_last]
    · intro j hj hji
      rw [get_append_last, get_append_fst hji]
      rcases hg with ⟨hnil, _, _, _⟩ | ⟨i, hi, hbest, _, _, hmin, _⟩
      · rw [hnil] at hji
        cases hji
      · rw [hbest] at himp
        unfold devImproves at himp
        have hlt : nll < hist.get ⟨i, hi⟩ := by simpa using himp
        exact lt_of_lt_of_le hlt (hmin j hji)
  · rw [if_neg himp]
    rcases hg with ⟨hnil, hbest, _, _⟩ | ⟨i, hi, hbest, hbe, hsaved, hmin, hfirst⟩
    · exfalso
      rw [hbest] at himp
      exact himp rfl
    · right
      have hi' : i < (hist ++ [nll]).length := by
        rw [List.length_append]
        omega
      have hget : (hist ++ [nll]).get ⟨i, hi'⟩ = hist.get ⟨i, hi⟩ :=
        get_append_fst hi hi'
      rw [hbest] at himp
      unfold devImproves at himp
      have hge : hist.get ⟨i, hi⟩ ≤ nll := by
        by_contra hlt
        push_neg at hlt
        exact himp (by simpa using hlt)
      refine ⟨i, hi', ?_, hbe, hsaved, ?_, ?_⟩
      · rw [hget, hbest]
      · intro j hj
        rw [hget]
        rcases Nat.lt_or_ge j hist.length with hjl | hjr
        · rw [get_append_fst hjl]
          exact hmin j hjl
        · have : j = hist.length := by
            rw [List.length_append] at hj
            simp at hj
            omega
          subst this
          rw [get_append_last]
          exact hge
      · intro j hj hji
        have hjl : j < hist.length := lt_of_lt_of_le hji (le_of_lt hi)
        rw [hget, get_append_fst hjl]
        exact hfirst j hjl hji

theorem epochStep_good {hist : List ℚ} {st : TrainState}
    (hg : GoodState hist st) (nll : ℚ) :
    GoodState (hist ++ [nll]) (epochStep hist.length nll st) := by
  have hp := decayLR_projs hist.length (updateBest hist.length nll st)
  have hu := updateBest_good hg nll
  unfold epochStep
  unfold GoodState at hu ⊢
  rw [hp.1, hp.2.1, hp.2.2]
  exact hu

theorem runEpochs_good (losses : List ℚ) : ∀ (hist : List ℚ) (st : TrainState),
    GoodState hist st →
    GoodState (hist ++ losses) (runEpochs losses hist.length st) := by
  induction losses with
  | nil =>
    intro hist st hg
    simpa using hg
  | cons nll rest ih =>
    intro hist st hg
    have hstep := epochStep_good hg nll
    have hrec := ih (hist ++ [nll]) _ hstep
    rw [List.length_append] at hrec
    simp only [List.length_cons, List.length_append, List.length_singleton] at hrec
    rw [show hist ++ nll :: rest = (hist ++ [nll]) ++ rest by simp]
    exact hrec

/-- What a run of the loop computed: the final state is the plain epoch fold
over the executed prefix; the loop runs through all epochs unless the
learning rate dropped below the floor, checked after every epoch, and stops
right at the first epoch after which it did. -/
theorem runLoop_spec (losses : List ℚ) : ∀ (e : ℕ) (st : TrainState),
    (runLoop losses e st).1 =
      runEpochs (losses.take (runLoop losses e st).2) e st ∧
    (runLoop losses e st).2 ≤ losses.length ∧
    ((runLoop losses e st).2 = losses.length ∨
      (runLoop losses e st).1.clr < lrFloor) ∧
    (∀ m, 0 < m → m < (runLoop losses e st).2 →
      lrFloor ≤ (runEpochs (losses.take m) e st).clr) := by
  induction losses with
  | nil =>
    intro e st
    refine ⟨rfl, le_refl 0, Or.inl rfl, ?_⟩
    intro m h1 h2
    have hz : (runLoop ([] : List ℚ) e st).2 = 0 := rfl
    omega
  | cons nll rest ih =>
    intro e st
    by_cases hbr : (epochStep e nll st).clr < lrFloor
    · have hloop : runLoop (nll :: rest) e st = (epochStep e nll st, 1) := by
        show (if (epochStep e nll st).clr < lrFloor
            then (epochStep e nll st, 1)
            else ((runLoop rest (e + 1) (epochStep e nll st)).1,
              (runLoop rest (e + 1) (epochStep e nll st)).2 + 1)) =
          (epochStep e nll st, 1)
        rw [if_pos hbr]
      rw [hloop]
      refine ⟨rfl, by simp, Or.inr hbr, ?_⟩
      intro m h1 h2
      omega
    · obtain ⟨ih1, ih2, ih3, ih4⟩ := ih (e + 1) (epochStep e nll st)
      have hloop : runLoop (nll :: rest) e st =
          ((runLoop rest (e + 1) (epochStep e nll st)).1,
           (runLoop rest (e + 1) (epochStep e nll st)).2 + 1) := by
        show (if (epochStep e nll st).clr < lrFloor
            then (epochStep e nll st, 1)
            else ((runLoop rest (e + 1) (epochStep e nll st)).1,
              (runLoop rest (e + 1) (epochStep e nll st)).2 + 1)) = _
        rw [if_neg hbr]
      rw [hloop]
      refine ⟨?_, by simp; omega, ?_, ?_⟩
      · rw [List.take_succ_cons]
        show (runLoop rest (e + 1) (epochStep e nll st)).1 =
          runEpochs (rest.take (runLoop rest (e + 1) (epochStep e nll st)).2)
            (e + 1) (epochStep e nll st)
        exact ih1
      · rcases ih3 with h | h
        · exact Or.inl (by simp [h])
        · exact Or.inr h
      · intro m h1 h2
        cases m with
        | zero => omega
        | succ m' =>
          rw [List.take_succ_cons]
          show lrFloor ≤ (runEpochs (rest.take m') (e + 1) (epochStep e nll st)).clr
          cases Nat.eq_zero_or_pos m' with
          | inl hz =>
            subst hz
            simpa using le_of_not_lt hbr
          | inr hpos =>
            exact ih4 m' hpos (by omega)

theorem listMin_eq_none_iff (l : List ℚ) : listMin l = none ↔ l = [] := by
  cases l with
  | nil => simp [listMin]
  | cons x xs =>
    unfold listMin
    constructor
    · intro h
      split at h <;> cases h
    · intro h
      cases h

theorem listMin_le {l : List ℚ} {m : ℚ} (h : listMin l = some m) :
    ∀ (j : ℕ) {b : ℚ}, l.get? j = some b → m ≤ b := by
  induction l generalizing m with
  | nil => cases h
  | cons x xs ih =>
    intro j b hb
    unfold listMin at h
    cases hxs : listMin xs with
    | none =>
      rw [hxs] at h
      injection h with h
      subst h
      have hnil : xs = [] := (listMin_eq_none_iff xs).mp hxs
      subst hnil
      cases j with
      | zero =>
        rw [List.get?_cons_zero] at hb
        injection hb with hb
        exact le_of_eq hb
      | succ j' =>
        rw [List.get?_cons_succ, List.get?_nil] at hb
        cases hb
    | some m' =>
      rw [hxs] at h
      injection h with h
      subst h
      cases j with
      | zero =>
        rw [List.get?_cons_zero] at hb
        injection hb with hb
        rw [← hb]
        split
        · exact le_refl x
        · next hxm => exact le_of_lt (lt_of_not_le hxm)
      | succ j' =>
        rw [List.get?_cons_succ] at hb
        have hrec := ih hxs j' hb
        split
        · next hxm => exact le_trans hxm hrec
        · exact hrec

theorem firstMinIdx_lt_length {l : List ℚ} (hl : l ≠ []) :
    firstMinIdx l < l.length := by
  induction l with
  | nil => exact absurd rfl hl
  | cons x xs ih =>
    have hfm : firstMinIdx (x :: xs) = (match listMin xs with
      | none => 0
      | some m => if x ≤ m then 0 else firstMinIdx xs + 1) := rfl
    rw [hfm]
    cases hxs : listMin xs with
    | none =>
      show (0 : ℕ) < (x :: xs).length
      simp
    | some m =>
      show (if x ≤ m then 0 else firstMinIdx xs + 1) < (x :: xs).length
      by_cases hxm : x ≤ m
      · rw [if_pos hxm]
        simp
      · rw [if_neg hxm]
        have hne : xs ≠ [] := by
          intro h
          rw [h] at hxs
          cases hxs
        simp only [List.length_cons]
        exact Nat.succ_lt_succ (ih hne)

theorem firstMinIdx_get? {l : List ℚ} (hl : l ≠ []) :
    l.get? (firstMinIdx l) = listMin l := by
  induction l with
  | nil => exact absurd rfl hl
  | cons x xs ih =>
    have hfm : firstMinIdx (x :: xs) = (match listMin xs with
      | none => 0
      | some m => if x ≤ m then 0 else firstMinIdx xs + 1) := rfl
    have hlm : listMin (x :: xs) = (match listMin xs with
      | none => some x
      | some m => some (if x ≤ m then x else m)) := rfl
    rw [hfm, hlm]
    cases hxs : listMin xs with
    | none => rfl
    | some m =>
      show (x :: xs).get? (if x ≤ m then 0 else firstMinIdx xs + 1) =
        some (if x ≤ m then x else m)
      by_cases hxm : x ≤ m
      · rw [if_pos hxm, if_pos hxm, List.get?_cons_zero]
      · rw [if_neg hxm, if_neg hxm, List.get?_cons_succ]
        have hne : xs ≠ [] := by
          intro he
          rw [he] at hxs
          cases hxs
        rw [ih hne, hxs]

theorem firstMinIdx_first (l : List ℚ) :
    ∀ (j : ℕ), j < firstMinIdx l →
      ∀ {a b : ℚ}, l.get? (firstMinIdx l) = some a → l.get? j = some b →
        a < b := by
  induction l with
  | nil =>
    intro j hj a b ha hb
    rw [show firstMinIdx [] = 0 from rfl] at hj
    cases hj
  | cons x xs ih =>
    intro j hj a b ha hb
    rw [show firstMinIdx (x :: xs) = (match listMin xs with
      | none => 0
      | some m => if x ≤ m then 0 else firstMinIdx xs + 1) from rfl] at hj ha
    cases hxs : listMin xs with
    | none =>
      rw [hxs] at hj
      have hj0 : j < 0 := hj
      cases hj0
    | some m =>
      rw [hxs] at hj ha
      have hj' : j < (if x ≤ m then 0 else firstMinIdx xs + 1) := hj
      have ha' : (x :: xs).get? (if x ≤ m then 0 else firstMinIdx xs + 1) =
        some a := ha
      by_cases hxm : x ≤ m
      · rw [if_pos hxm] at hj'
        cases hj'
      · rw [if_neg hxm] at hj' ha'
        have hne : xs ≠ [] := by
          intro he
          rw [he] at hxs
          cases hxs
        rw [List.get?_cons_succ] at ha'
        have hval : a = m := by
          have h1 := firstMinIdx_get? hne
          rw [hxs] at h1
          rw [h1] at ha'
          injection ha' with ha'
          exact ha'.symm
        cases j with
        | zero =>
          rw [List.get?_cons_zero] at hb
          injection hb with hb
          rw [← hb, hval]
          exact lt_of_not_le hxm
        | succ j' =>
          rw [List.get?_cons_succ] at hb
          exact ih j' (by omega) ha' hb

/-- The index recorded by the invariant is exactly `firstMinIdx`. -/
theorem argmin_unique {l : List ℚ} {i : ℕ} (hi : i < l.length)
    (hmin : ∀ (j : ℕ) (hj : j < l.length), l.get ⟨i, hi⟩ ≤ l.get ⟨j, hj⟩)
    (hfirst : ∀ (j : ℕ) (hj : j < l.length), j < i →
      l.get ⟨i, hi⟩ < l.get ⟨j, hj⟩) :
    i = firstMinIdx l := by
  have hl : l ≠ [] := by
    intro h
    subst h
    cases hi
  have hfm := firstMinIdx_lt_length hl
  have hfmget : l.get? (firstMinIdx l) = some (l.get ⟨firstMinIdx l, hfm⟩) :=
    List.get?_eq_get hfm
  rcases lt_trichotomy i (firstMinIdx l) with h | h | h
  · exfalso
    have h1 := firstMinIdx_first l i h hfmget (List.get?_eq_get hi)
    have h2 := hmin (firstMinIdx l) hfm
    exact absurd (lt_of_le_of_lt h2 h1) (lt_irrefl _)
  · exact h
  · exfalso
    have h1 := hfirst (firstMinIdx l) hfm h
    have hminv : listMin l = some (l.get ⟨firstMinIdx l, hfm⟩) := by
      rw [← firstMinIdx_get? hl, hfmget]
    have h2 := listMin_le hminv i (List.get?_eq_get hi)
    exact absurd (lt_of_le_of_lt h2 h1) (lt_irrefl _)

/-- C1: a checkpoint is written exactly when the epoch's dev loss is strictly
lower than every previous epoch's dev loss (first conjunct: `saveModel` runs
iff the improvement test passes; second: at any epoch of a run from the
initial state the improvement test passes iff the loss beats every previous
epoch), and once at least one epoch has run, the bundle in the best slot is
the one saved at the first epoch attaining the lowest dev loss of the run —
no later epoch with an equal or worse loss overwrites it. -/
theorem trainingLoop_best_checkpoint (losses : List ℚ) (lr : ℚ) :
    (∀ (e : ℕ) (nll : ℚ) (st : TrainState),
      (updateBest e nll st).saved =
        (if devImproves st.best nll then some e else st.saved)) ∧
    (∀ (e : ℕ) (he : e < losses.length),
      (devImproves (runEpochs (losses.take e) 0 (initState lr)).best
          (losses.get ⟨e, he⟩) = true ↔
        ∀ (j : ℕ) (hj : j < losses.length), j < e →
          losses.get ⟨e, he⟩ < losses.get ⟨j, hj⟩)) ∧
    (1 ≤ (runLoop losses 0 (initState lr)).2 →
      ((runLoop losses 0 (initState lr)).1.saved =
        some (firstMinIdx (losses.take (runLoop losses 0 (initState lr)).2)) ∧
       firstMinIdx (losses.take (runLoop losses 0 (initState lr)).2) <
         (runLoop losses 0 (initState lr)).2 ∧
       (∀ (j : ℕ), j < (runLoop losses 0 (initState lr)).2 →
         ∀ {a b : ℚ},
           losses.get? (firstMinIdx
             (losses.take (runLoop losses 0 (initState lr)).2)) = some a →
           losses.get? j = some b → a ≤ b) ∧
       (∀ (j : ℕ),
         j < firstMinIdx (losses.take (runLoop losses 0 (initState lr)).2) →
         ∀ {a b : ℚ},
           losses.get? (firstMinIdx
             (losses.take (runLoop losses 0 (initState lr)).2)) = some a →
           losses.get? j = some b → a < b))) := by
  have hinit : GoodState [] (initState lr) := Or.inl ⟨rfl, rfl, rfl, rfl⟩
  refine ⟨?_, ?_, ?_⟩
  · intro e nll st
    by_cases h : devImproves st.best nll <;> simp [updateBest, h]
  · intro e he
    have hgood : GoodState (losses.take e)
        (runEpochs (losses.take e) 0 (initState lr)) := by
      have := runEpochs_good (losses.take e) [] (initState lr) hinit
      simpa using this
    have hlen : (losses.take e).length = e := by
      rw [List.length_take]
      omega
    rcases hgood with ⟨hnil, hbest, _, _⟩ | ⟨i, hi, hbest, _, _, hmin, _⟩
    · have he0 : e = 0 := by
        rw [hnil] at hlen
        simpa using hlen.symm
      subst he0
      rw [hbest]
      constructor
      · intro _ j hj hj0
        cases hj0
      · intro _
        rfl
    · rw [hbest]
      have hie : i < e := hlen ▸ hi
      have hiL : i < losses.length := lt_trans hie he
      have hgetI : (losses.take e).get ⟨i, hi⟩ = losses.get ⟨i, hiL⟩ := by
        have h1 : (losses.take e).get? i = losses.get? i :=
          List.get?_take hie
        rw [List.get?_eq_get hi, List.get?_eq_get hiL] at h1
        injection h1
      constructor
      · intro himp j hj hje
        have hjt : j < (losses.take e).length := by
          rw [hlen]
          exact hje
        have hlt : losses.get ⟨e, he⟩ < (losses.take e).get ⟨i, hi⟩ := by
          unfold devImproves at himp
          simpa using himp
        have hle := hmin j hjt
        have hgetJ : (losses.take e).get ⟨j, hjt⟩ = losses.get ⟨j, hj⟩ := by
          have h1 : (losses.take e).get? j = losses.get? j :=
            List.get?_take hje
          rw [List.get?_eq_get hjt, List.get?_eq_get hj] at h1
          injection h1
        rw [hgetJ] at hle
        exact lt_of_lt_of_le hlt hle
      · intro hall
        have := hall i hiL hie
        rw [← hgetI] at this
        unfold devImproves
        simpa using this
  · intro hk
    obtain ⟨hfin, hkle, _, _⟩ := runLoop_spec losses 0 (initState lr)
    have hgood : GoodState (losses.take (runLoop losses 0 (initState lr)).2)
        ((runLoop losses 0 (initState lr)).1) := by
      rw [hfin]
      have := runEpochs_good (losses.take (runLoop losses 0 (initState lr)).2)
        [] (initState lr) hinit
      simpa using this
    have hlen : (losses.take (runLoop losses 0 (initState lr)).2).length =
        (runLoop losses 0 (initState lr)).2 := by
      rw [List.length_take]
      omega
    rcases hgood with ⟨hnil, _, _, _⟩ | ⟨i, hi, _, _, hsaved, hmin, hfirst⟩
    · exfalso
      rw [hnil] at hlen
      simp at hlen
      omega
    · have hifm : i = firstMinIdx
          (losses.take (runLoop losses 0 (initState lr)).2) :=
        argmin_unique hi hmin hfirst
      have hik : i < (runLoop losses 0 (initState lr)).2 := hlen ▸ hi
      refine ⟨hifm ▸ hsaved, hifm ▸ hik, ?_, ?_⟩
      · intro j hjk a b ha hb
        have hjt : j <
            (losses.take (runLoop losses 0 (initState lr)).2).length := by
          rw [hlen]
          exact hjk
        have ha' : (losses.take (runLoop losses 0 (initState lr)).2).get?
            (firstMinIdx (losses.take (runLoop losses 0 (initState lr)).2)) =
            some a := by
          rw [List.get?_take (hifm ▸ hik)]
          exact ha
        have hb' : (losses.take (runLoop losses 0 (initState lr)).2).get? j =
            some b := by
          rw [List.get?_take hjk]
          exact hb
        rw [← hifm] at ha'
        rw [List.get?_eq_get hi] at ha'
        rw [List.get?_eq_get hjt] at hb'
        injection ha' with ha'
        injection hb' with hb'
        rw [← ha', ← hb']
        exact hmin j hjt
      · intro j hjfm a b ha hb
        have hjk : j < (runLoop losses 0 (initState lr)).2 :=
          lt_trans hjfm (hifm ▸ hik)
        have hjt : j <
            (losses.take (runLoop losses 0 (initState lr)).2).length := by
          rw [hlen]
          exact hjk
        have ha' : (losses.take (runLoop losses 0 (initState lr)).2).get?
            (firstMinIdx (losses.take (runLoop losses 0 (initState lr)).2)) =
            some a := by
          rw [List.get?_take (hifm ▸ hik)]
          exact ha
        have hb' : (losses.take (runLoop losses 0 (initState lr)).2).get? j =
            some b := by
          rw [List.get?_take hjk]
          exact hb
        rw [← hifm] at ha' hjfm
        rw [List.get?_eq_get hi] at ha'
        rw [List.get?_eq_get hjt] at hb'
        injection ha' with ha'
        injection hb' with hb'
        rw [← ha', ← hb']
        exact hfirst j hjt hjfm

/-- Witness for C1 on the run 5, 3, 4, 3 with learning rate 1: all four
epochs execute and the best slot holds the epoch-1 bundle (the first epoch
attaining the minimum loss 3; epoch 3 ties and does not overwrite it). -/
theorem trainingLoop_best_checkpoint_witness :
    (runLoop [5, 3, 4, 3] 0 (initState 1)).1.saved =
      some (firstMinIdx (([5, 3, 4, 3] : List ℚ).take
        (runLoop [5, 3, 4, 3] 0 (initState 1)).2)) ∧
    firstMinIdx (([5, 3, 4, 3] : List ℚ).take
      (runLoop [5, 3, 4, 3] 0 (initState 1)).2) <
      (runLoop [5, 3, 4, 3] 0 (initState 1)).2 := by
  obtain ⟨h1, h2⟩ :=
    (trainingLoop_best_checkpoint [5, 3, 4, 3] 1).2.2 (by decide)
  exact ⟨h1, h2.1⟩

theorem decayLR_clr (e : ℕ) {st : TrainState} {b : ℕ} (hb : st.be = some b) :
    (decayLR e st).clr =
      (if 3 ≤ ((b : ℤ) - (e : ℤ)).natAbs then st.clr * (1 / 2) else st.clr) := by
  unfold decayLR
  rw [hb]
  by_cases h : 3 ≤ ((b : ℤ) - (e : ℤ)).natAbs
  · show (if 3 ≤ ((b : ℤ) - (e : ℤ)).natAbs then
        { clr := st.clr * (1 / 2), best := st.best, be := some b,
          saved := st.saved } else st).clr = _
    rw [if_pos h, if_pos h]
  · show (if 3 ≤ ((b : ℤ) - (e : ℤ)).natAbs then
        { clr := st.clr * (1 / 2), best := st.best, be := some b,
          saved := st.saved } else st).clr = _
    rw [if_neg h, if_neg h]

/-- C3: at the end of every epoch — improving or not — the learning rate is
halved exactly when the absolute difference between the recorded best epoch
and the current epoch index is at least 3; the loop runs through the whole
epoch budget unless some epoch leaves the learning rate below 1e-5, and it
stops right after the first epoch that does. -/
theorem trainingLoop_decay_stop (losses : List ℚ) (lr : ℚ) :
    (∀ (e : ℕ) (nll : ℚ) (st : TrainState) (b : ℕ),
      (updateBest e nll st).be = some b →
      ((3 ≤ ((b : ℤ) - (e : ℤ)).natAbs →
          (epochStep e nll st).clr = st.clr * (1 / 2)) ∧
       (((b : ℤ) - (e : ℤ)).natAbs < 3 →
          (epochStep e nll st).clr = st.clr))) ∧
    ((runLoop losses 0 (initState lr)).2 ≤ losses.length ∧
     ((runLoop losses 0 (initState lr)).2 = losses.length ∨
       (runLoop losses 0 (initState lr)).1.clr < lrFloor) ∧
     (∀ m, 0 < m → m < (runLoop losses 0 (initState lr)).2 →
       lrFloor ≤ (runEpochs (losses.take m) 0 (initState lr)).clr)) := by
  constructor
  · intro e nll st b hb
    have hclr : (updateBest e nll st).clr = st.clr := by
      unfold updateBest
      split <;> rfl
    have hd := decayLR_clr e hb
    constructor
    · intro h3
      show (decayLR e (updateBest e nll st)).clr = st.clr * (1 / 2)
      rw [hd, if_pos h3, hclr]
    · intro h3
      show (decayLR e (updateBest e nll st)).clr = st.clr
      rw [hd, if_neg (by omega), hclr]
  · obtain ⟨_, h2, h3, h4⟩ := runLoop_spec losses 0 (initState lr)
    exact ⟨h2, h3, h4⟩

/-- Witness for C3: a stale state three epochs past its best epoch halves the
rate; on the run 5, 3, 4, 3 with learning rate 1 all four epochs execute and
the rate never crosses the floor mid-run. -/
theorem trainingLoop_decay_stop_witness :
    (epochStep 3 2 ⟨1, some 1, some 0, some 0⟩).clr =
      (⟨1, some 1, some 0, some 0⟩ : TrainState).clr * (1 / 2) ∧
    (runLoop [5, 3, 4, 3] 0 (initState 1)).2 ≤ 4 ∧
    ((runLoop [5, 3, 4, 3] 0 (initState 1)).2 = 4 ∨
      (runLoop [5, 3, 4, 3] 0 (initState 1)).1.clr < lrFloor) ∧
    lrFloor ≤ (runEpochs (([5, 3, 4, 3] : List ℚ).take 2) 0 (initState 1)).clr := by
  obtain ⟨ha, hb⟩ := trainingLoop_decay_stop [5, 3, 4, 3] 1
  exact ⟨(ha 3 2 ⟨1, some 1, some 0, some 0⟩ 0 (by decide)).1 (by decide),
    hb.1, hb.2.1, hb.2.2 2 (by decide) (by decide)⟩

end MTRNN

